import Mathlib

/-!
Verification of the `rec_rsys` recommender library (KNN ranking engine,
ranking policy and similarity-metric catalog) against its specification.

Embedding conventions, stated once here:

* Scores and vector entries at the ranking layer (`src/utils.rs`,
  `src/algorithms/knn.rs`, `src/models.rs`) are Rust `f32` values whose
  behaviour under `f32::total_cmp` / `f32::partial_cmp` matters, NaN
  included.  We model that value space by `F32`: an ordinary (finite)
  float is a rational `F32.num q`, and the special values `inf`, `ninf`
  and `nan` are explicit constructors.  `nan` models `f32::NAN`
  (the positive quiet NaN, the one the library itself stores via
  `Item::new(_, _, None)`); `total_cmp` places it above every other
  value, exactly as the Rust total order does for positive NaN.
* The numeric formulas of the metric catalog (`src/similarity.rs`,
  `src/statistics.rs`, `src/utils.rs`) are idealized over `ℝ`: float
  arithmetic is read as real arithmetic, `f32::sqrt`/`powf` as
  `Real.sqrt`/`Real.rpow`.  These definitions are `noncomputable`
  because real arithmetic in Lean is, but each mirrors its Rust
  source expression shape for shape.
* The Rust `slice::sort_by` is a stable sort driven by a three-way
  comparator; its output is the unique permutation that is sorted by
  "comparator never answers `Greater` on an adjacent pair" and keeps
  tied elements in input order.  We model it by `List.insertionSort`
  over the relation `cle cmp a b := cmp a b ≠ .gt`, which computes that
  same unique stable result.
-/

/-- Model of the Rust `f32` value space as seen by the ranking layer:
finite floats are rationals, and the infinities and (positive) NaN are
explicit.  (`-0.0` and `+0.0` collapse to `num 0`; no claim depends on
the signed-zero distinction, and no negative NaN is ever produced or
stored by the library.) -/
inductive F32 where
  | nan : F32
  | inf : F32
  | ninf : F32
  | num : ℚ → F32
deriving DecidableEq

namespace F32

/-- Model of Rust `f32::total_cmp` restricted to the modelled values:
`ninf < num _ < inf < nan`, with rationals compared by their order.
This is the IEEE-754 `totalOrder` predicate Rust implements, in which
the positive NaN is greater than every other value. -/
def total_cmp : F32 → F32 → Ordering
  | .ninf, .ninf => .eq
  | .ninf, .num _ => .lt
  | .ninf, .inf => .lt
  | .ninf, .nan => .lt
  | .num _, .ninf => .gt
  | .num a, .num b => compare a b
  | .num _, .inf => .lt
  | .num _, .nan => .lt
  | .inf, .ninf => .gt
  | .inf, .num _ => .gt
  | .inf, .inf => .eq
  | .inf, .nan => .lt
  | .nan, .ninf => .gt
  | .nan, .num _ => .gt
  | .nan, .inf => .gt
  | .nan, .nan => .eq

/-- Model of Rust `f32::partial_cmp`: `None` exactly when one operand is
NaN; on NaN-free operands it agrees with `total_cmp` (signed zeros,
the one other place the two comparisons differ, are not modelled). -/
def pcmp : F32 → F32 → Option Ordering
  | .nan, _ => none
  | .ninf, .nan => none
  | .num _, .nan => none
  | .inf, .nan => none
  | a, b => some (total_cmp a b)

theorem pcmp_eq_some {a b : F32} (ha : a ≠ .nan) (hb : b ≠ .nan) :
    pcmp a b = some (total_cmp a b) := by
  cases a <;> cases b <;> simp_all [pcmp]

theorem compare_rat_ne_gt {a b : ℚ} : compare a b ≠ .gt ↔ a ≤ b := by
  rw [ne_eq, compare_gt_iff_gt, not_lt]

theorem total_cmp_self_ne_gt (a : F32) : total_cmp a a ≠ .gt := by
  cases a <;> simp [total_cmp, compare_rat_ne_gt]

theorem total_cmp_gt_asymm {a b : F32} (h : total_cmp a b = .gt) :
    total_cmp b a ≠ .gt := by
  cases a <;> cases b <;>
    simp_all [total_cmp, compare_rat_ne_gt, compare_gt_iff_gt, le_of_lt]

theorem total_cmp_le_trans {a b c : F32} (h1 : total_cmp a b ≠ .gt)
    (h2 : total_cmp b c ≠ .gt) : total_cmp a c ≠ .gt := by
  cases a <;> cases b <;> cases c <;>
    simp_all [total_cmp, compare_rat_ne_gt] <;> exact le_trans h1 h2

/-- NaN is the top of the total order: the only value `b` with
`total_cmp nan b ≠ .gt` is NaN itself. -/
theorem eq_nan_of_total_cmp_nan_ne_gt {b : F32} (h : total_cmp .nan b ≠ .gt) :
    b = .nan := by
  cases b <;> simp_all [total_cmp]

theorem total_cmp_eq_of_eq {a b : F32} (h : a = b) : total_cmp a b ≠ .gt :=
  h ▸ total_cmp_self_ne_gt a

end F32

/-! ### The stable comparator sort underlying `slice::sort_by` -/

/-- The "does not compare Greater" relation of a three-way comparator:
The Rust stable `sort_by(compare_fn)` produces the unique permutation of
its input that is sorted by this relation and keeps ties in input
order. -/
def cle {α : Type*} (cmp : α → α → Ordering) (a b : α) : Prop :=
  cmp a b ≠ .gt

instance cleDecidable {α : Type*} (cmp : α → α → Ordering) :
    DecidableRel (cle cmp) := fun a b => by unfold cle; infer_instance

/-- A comparator is sortable when `Greater` is asymmetric and the
non-`Greater` relation is transitive; both Item comparators used by the
library satisfy this because `f32::total_cmp` is a total order. -/
def CmpLawful {α : Type*} (cmp : α → α → Ordering) : Prop :=
  (∀ a b, cmp a b = .gt → cmp b a ≠ .gt) ∧
    (∀ a b c, cle cmp a b → cle cmp b c → cle cmp a c)

theorem CmpLawful.total {α : Type*} {cmp : α → α → Ordering}
    (h : CmpLawful cmp) (a b : α) : cle cmp a b ∨ cle cmp b a := by
  by_cases hab : cmp a b = .gt
  · exact Or.inr (h.1 a b hab)
  · exact Or.inl hab

theorem sorted_insertionSort_cle {α : Type*} {cmp : α → α → Ordering}
    (h : CmpLawful cmp) (l : List α) :
    List.Sorted (cle cmp) (List.insertionSort (cle cmp) l) := by
  haveI : IsTotal α (cle cmp) := ⟨h.total⟩
  haveI : IsTrans α (cle cmp) := ⟨h.2⟩
  exact List.sorted_insertionSort (cle cmp) l

/-- Stability of insertion at the level of a Boolean filter: as long as
any two elements accepted by `p` are tied under the comparator (so the
insertion scan can never step over one of them), inserting `a` touches
the filtered sublist only by possibly putting `a` at its front. -/
theorem filter_orderedInsert_cle {α : Type*} {cmp : α → α → Ordering}
    {p : α → Bool} (hp : ∀ a b, p a = true → p b = true → cle cmp a b)
    (a : α) (l : List α) :
    (List.orderedInsert (cle cmp) a l).filter p =
      if p a then a :: l.filter p else l.filter p := by
  induction l with
  | nil => by_cases hpa : p a <;> simp [List.orderedInsert, hpa]
  | cons b l ih =>
    by_cases hab : cle cmp a b
    · rw [List.orderedInsert, if_pos hab]
      by_cases hpa : p a <;> simp [List.filter_cons, hpa]
    · rw [List.orderedInsert, if_neg hab]
      by_cases hpb : p b
      · have hpa : p a = false := by
          by_contra hpa
          exact hab (hp a b (by simpa using hpa) hpb)
        simp [List.filter_cons, hpb, hpa] at ih ⊢
        exact ih
      · by_cases hpa : p a <;> simp [List.filter_cons, hpb, hpa] at ih ⊢ <;>
          exact ih

/-- Stability of the whole stable sort, filter form: the sublist of
elements accepted by `p` (a class of mutually tied elements, for the
claims: the elements with one given score) is exactly preserved, in
input order. -/
theorem filter_insertionSort_cle {α : Type*} {cmp : α → α → Ordering}
    {p : α → Bool} (hp : ∀ a b, p a = true → p b = true → cle cmp a b)
    (l : List α) :
    (List.insertionSort (cle cmp) l).filter p = l.filter p := by
  induction l with
  | nil => rfl
  | cons a l ih =>
    rw [List.insertionSort, filter_orderedInsert_cle hp, ih,
      List.filter_cons]

/-! ### Data model (`src/models.rs`) -/

/-- `Item` from `src/models.rs`: an identifier, the feature vector, and
the similarity score slot (`f32::NAN` until populated).  The `u32` id is
modelled by `ℕ`. -/
structure Item where
  id : ℕ
  values : List F32
  result : F32
deriving DecidableEq

/-- The builder `Item::result` from `src/models.rs` (renamed: in Lean
the field projection already carries the name): returns the item with
its `result` field replaced. -/
def Item.setResult (it : Item) (r : F32) : Item :=
  { it with result := r }

/-! ### Ranking policy (`src/utils.rs`) -/

/-- `sort_with_direction` from `src/utils.rs`: sorts with the
comparator, or with the argument-flipped comparator when `reverse` is
set (the source calls `v.sort_by(|a, b| compare_fn(b, a))` in that
branch).  `slice::sort_by` is modelled by the stable
`List.insertionSort` over the non-`Greater` relation of the comparator. -/
def sort_with_direction {α : Type*} (v : List α)
    (compare_fn : α → α → Ordering) (reverse : Bool) : List α :=
  if reverse then List.insertionSort (cle fun a b => compare_fn b a) v
  else List.insertionSort (cle compare_fn) v

/-- The comparator closure `sort_and_trucate` passes to
`sort_with_direction`: `|item_a, item_b| item_a.result.total_cmp(&item_b.result)`. -/
def itemCmp (item_a item_b : Item) : Ordering :=
  item_a.result.total_cmp item_b.result

/-- `sort_and_trucate` (sic) from `src/utils.rs`; the private copy in
`src/algorithms/knn.rs` is textually identical and is modelled by this
same definition.  The `u8` keep-count is modelled by `ℕ` (the source
widens it to `usize` before `truncate`). -/
def sort_and_trucate (best_matches : List Item) (reverse : Bool)
    (k : ℕ) : List Item :=
  (sort_with_direction best_matches itemCmp reverse).take k

theorem itemCmp_lawful : CmpLawful itemCmp :=
  ⟨fun _ _ h => F32.total_cmp_gt_asymm h,
   fun _ _ _ h1 h2 => F32.total_cmp_le_trans h1 h2⟩

theorem itemCmp_flip_lawful : CmpLawful (fun a b => itemCmp b a) :=
  ⟨fun _ _ h => F32.total_cmp_gt_asymm h,
   fun _ _ _ h1 h2 => F32.total_cmp_le_trans h2 h1⟩

theorem sort_with_direction_eq_false {α : Type*} (v : List α)
    (compare_fn : α → α → Ordering) :
    sort_with_direction v compare_fn false =
      List.insertionSort (cle compare_fn) v := rfl

theorem sort_with_direction_eq_true {α : Type*} (v : List α)
    (compare_fn : α → α → Ordering) :
    sort_with_direction v compare_fn true =
      List.insertionSort (cle fun a b => compare_fn b a) v := rfl

/-- The "ordered by score in the requested direction" relation on
adjacent output items: exactly the relation the chosen comparator
direction sorts by. -/
def scoreLe (reverse : Bool) (a b : Item) : Prop :=
  if reverse then b.result.total_cmp a.result ≠ .gt
  else a.result.total_cmp b.result ≠ .gt

theorem sort_and_trucate_pairwise (l : List Item) (reverse : Bool)
    (k : ℕ) :
    (sort_and_trucate l reverse k).Pairwise (scoreLe reverse) := by
  have h : (sort_with_direction l itemCmp reverse).Pairwise
      (scoreLe reverse) := by
    cases reverse
    · exact sorted_insertionSort_cle itemCmp_lawful l
    · exact sorted_insertionSort_cle itemCmp_flip_lawful l
  exact h.sublist (List.take_sublist k _)

/-! ### Claims C1, C4, C5 about the ranking policy -/

/-- The score class of `s`: receiver for the tie-stability statements. -/
def scoreIs (s : F32) (it : Item) : Bool :=
  it.result == s

/-- C1 (amended). With the ascending flag the ranking policy places every
NaN-scored candidate after all candidates with non-NaN scores, but with
the descending flag `f32::total_cmp` (under which NaN is the greatest
value) places every NaN-scored candidate before all non-NaN ones.  the
ordering is total and deterministic in both cases. -/
theorem sort_and_trucate_nan_placement (l : List Item) (k : ℕ) :
    (sort_and_trucate l false k).Pairwise
      (fun a b => a.result = F32.nan → b.result = F32.nan) ∧
    (sort_and_trucate l true k).Pairwise
      (fun a b => b.result = F32.nan → a.result = F32.nan) := by
  constructor
  · refine (sort_and_trucate_pairwise l false k).imp ?_
    intro a b hab ha
    simp only [scoreLe, if_neg Bool.false_ne_true] at hab
    rw [ha] at hab
    exact F32.eq_nan_of_total_cmp_nan_ne_gt hab
  · refine (sort_and_trucate_pairwise l true k).imp ?_
    intro a b hab hb
    simp only [scoreLe, if_pos rfl] at hab
    rw [hb] at hab
    exact F32.eq_nan_of_total_cmp_nan_ne_gt hab

/-- C1 (counterexample to the claim as stated).  Under the descending
direction flag a NaN-scored item is placed before a non-NaN one: the
claimed "NaN sorts last regardless of direction flag" fails. -/
theorem sort_and_trucate_nan_descending_cx :
    ¬ (sort_and_trucate
        [⟨1, [], F32.nan⟩, ⟨2, [], F32.num 0⟩] true 2).Pairwise
      (fun a b => a.result = F32.nan → b.result = F32.nan) := by
  decide

theorem length_sort_with_direction (l : List Item) (reverse : Bool) :
    (sort_with_direction l itemCmp reverse).length = l.length := by
  cases reverse <;>
    exact (List.perm_insertionSort _ l).length_eq

/-- C4.  When the keep-count is at least the pool size, the ranking
policy returns a permutation of the entire input (every element exactly
once: `List.Perm` is multiset equality) ordered by score in the
requested direction. -/
theorem sort_and_trucate_full (l : List Item) (reverse : Bool) (k : ℕ)
    (h : l.length ≤ k) :
    (sort_and_trucate l reverse k).Perm l ∧
    (sort_and_trucate l reverse k).Pairwise (scoreLe reverse) := by
  refine ⟨?_, sort_and_trucate_pairwise l reverse k⟩
  unfold sort_and_trucate
  rw [List.take_of_length_le (by rw [length_sort_with_direction]; exact h)]
  cases reverse <;> exact List.perm_insertionSort _ l

/-- C4 witness: the theorem applied to a concrete three-item pool with
keep-count 5. -/
theorem sort_and_trucate_full_witness :
    ([⟨1, [], F32.num 1⟩, ⟨2, [], F32.nan⟩, ⟨3, [], F32.num 0⟩] :
        List Item).length ≤ 5 ∧
    ((sort_and_trucate
        [⟨1, [], F32.num 1⟩, ⟨2, [], F32.nan⟩, ⟨3, [], F32.num 0⟩]
        true 5).Perm
      [⟨1, [], F32.num 1⟩, ⟨2, [], F32.nan⟩, ⟨3, [], F32.num 0⟩] ∧
    (sort_and_trucate
        [⟨1, [], F32.num 1⟩, ⟨2, [], F32.nan⟩, ⟨3, [], F32.num 0⟩]
        true 5).Pairwise (scoreLe true)) :=
  ⟨by decide, sort_and_trucate_full _ true 5 (by decide)⟩

/-- C5.  Tied elements (same score `s`) appear in the output in their
input relative order, under both direction flags: the score-`s`
sublist of the output is a sublist of that of the input, and with no
truncation it is exactly the score-`s` sublist of the input. -/
theorem sort_and_trucate_stable_ties (l : List Item) (reverse : Bool)
    (k : ℕ) (s : F32) :
    ((sort_and_trucate l reverse k).filter (scoreIs s)).Sublist
      (l.filter (scoreIs s)) ∧
    (l.length ≤ k →
      (sort_and_trucate l reverse k).filter (scoreIs s) =
        l.filter (scoreIs s)) := by
  have hfull : (sort_with_direction l itemCmp reverse).filter (scoreIs s) =
      l.filter (scoreIs s) := by
    cases reverse
    · refine filter_insertionSort_cle (fun a b ha hb => ?_) l
      simp only [scoreIs, beq_iff_eq] at ha hb
      exact F32.total_cmp_eq_of_eq (ha.trans hb.symm)
    · refine filter_insertionSort_cle (fun a b ha hb => ?_) l
      simp only [scoreIs, beq_iff_eq] at ha hb
      exact F32.total_cmp_eq_of_eq (hb.trans ha.symm)
  constructor
  · rw [← hfull]
    exact ((List.take_sublist k _).filter (scoreIs s))
  · intro h
    unfold sort_and_trucate
    rw [List.take_of_length_le (by rw [length_sort_with_direction]; exact h)]
    exact hfull

/-- C5 witness: a pool with two items tied at score 1, descending flag;
the tied pair keeps its input order, and with keep-count 5 the tie class
is preserved exactly. -/
theorem sort_and_trucate_stable_ties_witness :
    ((sort_and_trucate
        [⟨1, [], F32.num 1⟩, ⟨2, [], F32.num 1⟩, ⟨3, [], F32.num 0⟩]
        true 5).filter (scoreIs (F32.num 1))).Sublist
      (([⟨1, [], F32.num 1⟩, ⟨2, [], F32.num 1⟩, ⟨3, [], F32.num 0⟩] :
        List Item).filter (scoreIs (F32.num 1))) ∧
    (sort_and_trucate
        [⟨1, [], F32.num 1⟩, ⟨2, [], F32.num 1⟩, ⟨3, [], F32.num 0⟩]
        true 5).filter (scoreIs (F32.num 1)) =
      ([⟨1, [], F32.num 1⟩, ⟨2, [], F32.num 1⟩, ⟨3, [], F32.num 0⟩] :
        List Item).filter (scoreIs (F32.num 1)) :=
  ⟨(sort_and_trucate_stable_ties _ true 5 _).1,
   (sort_and_trucate_stable_ties _ true 5 _).2 (by decide)⟩

/-! ### KNN engine (`src/algorithms/knn.rs`) -/

/-- The metric selector enumeration `SimilarityAlgos`.  Its declaration
is not under `src/` (only its use sites are), but its variants are fully
determined by the `match` in `KNN::get_formula`
(`src/algorithms/knn.rs`, lines 38-45). -/
inductive SimilarityAlgos where
  | Cosine
  | AdjustedCosine
  | Euclidean
  | PearsonCorrelation
  | Spearman
  | MSD
deriving DecidableEq

/-- The `KNN` struct from `src/algorithms/knn.rs`. -/
structure KNN where
  new_item : Item
  references : List Item
  k : ℕ

/-- `KNN::vectors_comparaison` from `src/algorithms/knn.rs`.  The source
resolves `(formula, reverse) = KNN::get_formula(algo)` and then builds
`best_matches` by pushing, for each pool item in order, a clone of the
item with its `result` field set to `formula(&self.new_item.values,
&item.values)`, finally delegating to `sort_and_trucate`.  The dispatch
table `get_formula` maps each selector to a pure float formula of
`src/similarity.rs`; those formulas live at the real-idealized layer, so
the table is taken here as an explicit parameter `get_formula` and every
claim about this function quantifies over it — covering, in particular,
the table of the source itself. -/
def KNN.vectors_comparaison (self : KNN)
    (get_formula : SimilarityAlgos → (List F32 → List F32 → F32) × Bool)
    (algo : SimilarityAlgos) : List Item :=
  let fr := get_formula algo
  sort_and_trucate
    (self.references.map fun item =>
      item.setResult (fr.1 self.new_item.values item.values))
    fr.2 self.k

/-- C6.  Every output item of `KNN::vectors_comparaison` is derived from
some pool item: same `id`, same `values`, and its `result` field — the
only other field an `Item` has — set to the selected metric function
applied to the value vectors of the query and of that pool item. -/
theorem vectors_comparaison_frame (self : KNN)
    (get_formula : SimilarityAlgos → (List F32 → List F32 → F32) × Bool)
    (algo : SimilarityAlgos) (out : Item)
    (hout : out ∈ self.vectors_comparaison get_formula algo) :
    ∃ item ∈ self.references, out.id = item.id ∧
      out.values = item.values ∧
      out.result = (get_formula algo).1 self.new_item.values item.values := by
  unfold KNN.vectors_comparaison at hout
  have h1 : out ∈ sort_with_direction
      (self.references.map fun item =>
        item.setResult ((get_formula algo).1 self.new_item.values item.values))
      itemCmp (get_formula algo).2 :=
    List.mem_of_mem_take hout
  have h2 : out ∈ self.references.map fun item =>
      item.setResult ((get_formula algo).1 self.new_item.values item.values) := by
    cases hrev : (get_formula algo).2 <;> rw [hrev] at h1 <;>
      exact (List.perm_insertionSort _ _).subset h1
  obtain ⟨item, hmem, hitem⟩ := List.mem_map.mp h2
  exact ⟨item, hmem, by rw [← hitem]; exact ⟨rfl, rfl, rfl⟩⟩

/-- C6 witness: a one-item pool, a constant formula, the cosine
selector; the only output item carries the id and values of the pool
item and the score given by the formula. -/
theorem vectors_comparaison_frame_witness :
    (⟨5, [F32.num 1], F32.num 7⟩ : Item) ∈
      KNN.vectors_comparaison
        ⟨⟨0, [], F32.nan⟩, [⟨5, [F32.num 1], F32.nan⟩], 1⟩
        (fun _ => (fun _ _ => F32.num 7, true)) SimilarityAlgos.Cosine ∧
    ∃ item ∈ (⟨⟨0, [], F32.nan⟩, [⟨5, [F32.num 1], F32.nan⟩], 1⟩ : KNN).references,
      (⟨5, [F32.num 1], F32.num 7⟩ : Item).id = item.id ∧
      (⟨5, [F32.num 1], F32.num 7⟩ : Item).values = item.values ∧
      (⟨5, [F32.num 1], F32.num 7⟩ : Item).result =
        ((fun (_ : SimilarityAlgos) => (fun _ _ => F32.num 7, true))
            SimilarityAlgos.Cosine).1
          (⟨⟨0, [], F32.nan⟩, [⟨5, [F32.num 1], F32.nan⟩], 1⟩ : KNN).new_item.values
          item.values :=
  ⟨by decide,
   vectors_comparaison_frame
     ⟨⟨0, [], F32.nan⟩, [⟨5, [F32.num 1], F32.nan⟩], 1⟩
     (fun _ => (fun _ _ => F32.num 7, true)) SimilarityAlgos.Cosine
     ⟨5, [F32.num 1], F32.num 7⟩ (by decide)⟩

/-- C9.  An empty reference pool yields an empty result (and no error:
the function is total), and a zero neighbor count yields an empty
result, for every query item, dispatch table and metric selector. -/
theorem vectors_comparaison_empty (q : Item) (refs : List Item) (k : ℕ)
    (get_formula : SimilarityAlgos → (List F32 → List F32 → F32) × Bool)
    (algo : SimilarityAlgos) :
    KNN.vectors_comparaison ⟨q, [], k⟩ get_formula algo = [] ∧
    KNN.vectors_comparaison ⟨q, refs, 0⟩ get_formula algo = [] := by
  constructor
  · unfold KNN.vectors_comparaison sort_and_trucate
    cases hrev : (get_formula algo).2 <;> simp [hrev, sort_with_direction]
  · unfold KNN.vectors_comparaison sort_and_trucate
    simp

/-! ### `argsort` (`src/utils.rs`) and claim C10 -/

/-- Ordered insertion driven by a partial three-way comparator: `none`
models a panic of `partial_cmp(..).unwrap()` inside the sorting
comparison closure. -/
def orderedInsertO {α : Type*} (cmpO : α → α → Option Ordering) (a : α) :
    List α → Option (List α)
  | [] => some [a]
  | b :: l =>
    match cmpO a b with
    | none => none
    | some o =>
      if o = .gt then (orderedInsertO cmpO a l).map (fun t => b :: t)
      else some (a :: b :: l)

/-- The stable sort driven by a partial comparator (model of
`slice::sort_by` whose closure may panic): `none` as soon as one of the
comparisons it performs is undefined. -/
def insertionSortO {α : Type*} (cmpO : α → α → Option Ordering) :
    List α → Option (List α)
  | [] => some []
  | b :: l => (insertionSortO cmpO l).bind (orderedInsertO cmpO b)

theorem orderedInsertO_eq_some {α : Type*}
    {cmpO : α → α → Option Ordering} {cmp : α → α → Ordering} {a : α}
    {t : List α} (h : ∀ b ∈ t, cmpO a b = some (cmp a b)) :
    orderedInsertO cmpO a t = some (List.orderedInsert (cle cmp) a t) := by
  induction t with
  | nil => rfl
  | cons b t ih =>
    have hb := h b (List.mem_cons_self b t)
    by_cases hgt : cmp a b = .gt
    · simp [orderedInsertO, hb, hgt, List.orderedInsert, cle,
        ih (fun c hc => h c (List.mem_cons_of_mem _ hc))]
    · simp [orderedInsertO, hb, hgt, List.orderedInsert, cle]

theorem insertionSortO_eq_some {α : Type*}
    {cmpO : α → α → Option Ordering} {cmp : α → α → Ordering}
    {l : List α} (h : ∀ a ∈ l, ∀ b ∈ l, cmpO a b = some (cmp a b)) :
    insertionSortO cmpO l = some (List.insertionSort (cle cmp) l) := by
  induction l with
  | nil => rfl
  | cons b l ih =>
    rw [insertionSortO,
      ih (fun a ha c hc =>
        h a (List.mem_cons_of_mem _ ha) c (List.mem_cons_of_mem _ hc)),
      Option.some_bind, List.insertionSort]
    exact orderedInsertO_eq_some (fun c hc =>
      h b (List.mem_cons_self b l) c
        (List.mem_cons_of_mem _ ((List.mem_insertionSort _).mp hc)))

/-- `argsort` from `src/utils.rs`: enumerate the vector, sort the
`(index, value)` pairs with `a.partial_cmp(b).unwrap()` on the values
(the possible panic is the `none` outcome), and return the indices cast
to floats. -/
def argsort (x : List F32) : Option (List F32) :=
  (insertionSortO (fun p q : ℕ × F32 => F32.pcmp p.2 q.2) x.enum).map
    (fun l => l.map fun p => F32.num (p.1 : ℚ))

/-- C10.  On a NaN-free input `argsort` returns normally (the `unwrap`
inside its comparator cannot fail), and the returned float list is the
index list of a permutation `l` of the enumerated input that is sorted
ascending by value — a permutation of the indices `0..n` ordering the
input ascending. -/
theorem argsort_total_of_nan_free (x : List F32) (hx : F32.nan ∉ x) :
    ∃ l : List (ℕ × F32),
      argsort x = some (l.map fun p => F32.num (p.1 : ℚ)) ∧
      l.Perm x.enum ∧
      (l.map Prod.fst).Perm (List.range x.length) ∧
      l.Pairwise (fun p q => F32.total_cmp p.2 q.2 ≠ .gt) := by
  have hmem : ∀ p : ℕ × F32, p ∈ x.enum → p.2 ≠ F32.nan := by
    intro p hp hnan
    refine hx ?_
    rw [← List.enum_map_snd x, ← hnan]
    exact List.mem_map_of_mem Prod.snd hp
  refine ⟨List.insertionSort
      (cle fun p q : ℕ × F32 => p.2.total_cmp q.2) x.enum, ?_, ?_, ?_, ?_⟩
  · unfold argsort
    rw [@insertionSortO_eq_some (ℕ × F32)
      (fun p q => F32.pcmp p.2 q.2) (fun p q => p.2.total_cmp q.2) x.enum
      (fun a ha b hb => F32.pcmp_eq_some (hmem a ha) (hmem b hb))]
    rfl
  · exact List.perm_insertionSort _ _
  · have hperm := (List.perm_insertionSort
      (cle fun p q : ℕ × F32 => p.2.total_cmp q.2) x.enum).map Prod.fst
    rwa [List.enum_map_fst] at hperm
  · exact @sorted_insertionSort_cle (ℕ × F32)
      (fun p q => p.2.total_cmp q.2)
      ⟨fun _ _ h => F32.total_cmp_gt_asymm h,
       fun _ _ _ h1 h2 => F32.total_cmp_le_trans h1 h2⟩ x.enum

/-- C10 witness: the theorem applied to the NaN-free vector
`[2, 0, 1]`. -/
theorem argsort_total_witness :
    F32.nan ∉ [F32.num 2, F32.num 0, F32.num 1] ∧
    ∃ l : List (ℕ × F32),
      argsort [F32.num 2, F32.num 0, F32.num 1] =
        some (l.map fun p => F32.num (p.1 : ℚ)) ∧
      l.Perm ([F32.num 2, F32.num 0, F32.num 1] : List F32).enum ∧
      (l.map Prod.fst).Perm
        (List.range ([F32.num 2, F32.num 0, F32.num 1] : List F32).length) ∧
      l.Pairwise (fun p q => F32.total_cmp p.2 q.2 ≠ .gt) :=
  ⟨by decide, argsort_total_of_nan_free _ (by decide)⟩

/-! ### Metric catalog (`src/utils.rs`, `src/statistics.rs`,
`src/similarity.rs`), idealized over `ℝ` -/

/-- `dot` from `src/utils.rs`: `x.iter().zip(y.iter()).map(|(&x, &y)| x * y).sum()`.
As in the source, vectors of unequal length are paired only up to the
shorter one by `zip`. -/
noncomputable def dot (x y : List ℝ) : ℝ :=
  ((x.zip y).map fun p => p.1 * p.2).sum

/-- `euclidean_norm` from `src/utils.rs`. -/
noncomputable def euclidean_norm (x : List ℝ) : ℝ :=
  Real.sqrt ((x.map fun a => a * a).sum)

/-- `squared_diff_sum` from `src/utils.rs` (again a silent `zip`). -/
noncomputable def squared_diff_sum (x y : List ℝ) : ℝ :=
  ((x.zip y).map fun p => (p.1 - p.2) ^ 2).sum

/-- `mean` from `src/statistics.rs`. -/
noncomputable def mean (data : List ℝ) : ℝ :=
  data.sum / data.length

/-- `cosine_similarity` from `src/similarity.rs`. -/
noncomputable def cosine_similarity (vec1 vec2 : List ℝ) : ℝ :=
  dot vec1 vec2 / (euclidean_norm vec1 * euclidean_norm vec2)

/-- `adjusted_cosine_similarity` from `src/similarity.rs` — its body is
textually the same expression as `cosine_similarity`. -/
noncomputable def adjusted_cosine_similarity (vec1 vec2 : List ℝ) : ℝ :=
  dot vec1 vec2 / (euclidean_norm vec1 * euclidean_norm vec2)

/-- `euclidean_distance` from `src/similarity.rs`. -/
noncomputable def euclidean_distance (vec1 vec2 : List ℝ) : ℝ :=
  Real.sqrt (squared_diff_sum vec1 vec2)

/-- `msd` from `src/similarity.rs`. -/
noncomputable def msd (x y : List ℝ) : ℝ :=
  squared_diff_sum x y / x.length

/-- `msd_similarity` from `src/similarity.rs`. -/
noncomputable def msd_similarity (x y : List ℝ) : ℝ :=
  1 / (msd x y + 1)

/-- `minkowski_distance` from `src/similarity.rs`: `powf` is `Real.rpow`. -/
noncomputable def minkowski_distance (x y : List ℝ) (p : ℝ) : ℝ :=
  (((x.zip y).map fun q => |q.1 - q.2| ^ p).sum) ^ (1 / p)

/-- C8.  `adjusted_cosine_similarity` returns exactly the value of
`cosine_similarity` on every pair of vectors: the two definitions are
the same formula. -/
theorem adjusted_cosine_eq_cosine (vec1 vec2 : List ℝ) :
    adjusted_cosine_similarity vec1 vec2 = cosine_similarity vec1 vec2 := rfl

/-- C7.  Minkowski distance of order 2 is the Euclidean distance, for
all vectors (of any, even unequal, lengths — both truncate by the same
`zip`). -/
theorem minkowski_two_eq_euclidean (x y : List ℝ) :
    minkowski_distance x y 2 = euclidean_distance x y := by
  unfold minkowski_distance euclidean_distance squared_diff_sum
  have hmap : ((x.zip y).map fun q => |q.1 - q.2| ^ (2 : ℝ)) =
      ((x.zip y).map fun q => (q.1 - q.2) ^ 2) := by
    refine List.map_congr_left fun q _ => ?_
    rw [Real.rpow_two, sq_abs]
  rw [hmap, Real.sqrt_eq_rpow]

/-- C2 (evidence of the divergence).  At unequal lengths the metric
primitives do not fail: they silently compute over the overlapping
two-element prefix — `dot ([1,2], [3,4,5])` is `11`, the value of
`dot ([1,2], [3,4])`, and `squared_diff_sum` behaves the same way.  (No
fail-fast error channel exists at all: the Rust functions return plain
floats, and so do their models.) -/
theorem length_mismatch_is_silently_truncated :
    dot [1, 2] [3, 4, 5] = 11 ∧
    dot [1, 2] [3, 4, 5] = dot [1, 2] [3, 4] ∧
    squared_diff_sum [1, 2] [3, 4, 5] = 8 ∧
    squared_diff_sum [1, 2] [3, 4, 5] = squared_diff_sum [1, 2] [3, 4] := by
  norm_num [dot, squared_diff_sum]

/-- `pearson_correlation` from `src/similarity.rs`: the `for_each` that
accumulates covariance and the two variances is modelled by a `foldl`
over the zipped vectors carrying the triple of accumulators. -/
noncomputable def pearson_correlation (vec1 vec2 : List ℝ) : ℝ :=
  let mean_vec1 := mean vec1
  let mean_vec2 := mean vec2
  let acc := (vec1.zip vec2).foldl
    (fun acc p =>
      (acc.1 + (p.1 - mean_vec1) * (p.2 - mean_vec2),
       acc.2.1 + (p.1 - mean_vec1) * (p.1 - mean_vec1),
       acc.2.2 + (p.2 - mean_vec2) * (p.2 - mean_vec2)))
    (0, 0, 0)
  acc.1 / (Real.sqrt acc.2.1 * Real.sqrt acc.2.2)

/-- `pearson_baseline_similarity` from `src/similarity.rs`: its third
and fourth parameters are the two baseline scalars `bx` and `by`; the
`for_each` accumulating numerator and the two denominators is a `foldl`
as above (`powi(2)` is `^ 2`). -/
noncomputable def pearson_baseline_similarity (vec1 vec2 : List ℝ)
    (bx by_ : ℝ) : ℝ :=
  let acc := (vec1.zip vec2).foldl
    (fun acc p =>
      (acc.1 + (p.1 - bx) * (p.2 - by_),
       acc.2.1 + (p.1 - bx) ^ 2,
       acc.2.2 + (p.2 - by_) ^ 2))
    (0, 0, 0)
  acc.1 / (Real.sqrt acc.2.1 * Real.sqrt acc.2.2)

theorem foldl_triple (u v w : ℝ × ℝ → ℝ) :
    ∀ (l : List (ℝ × ℝ)) (a b c : ℝ),
    l.foldl (fun acc p => (acc.1 + u p, acc.2.1 + v p, acc.2.2 + w p))
        (a, b, c) =
      (a + (l.map u).sum, b + (l.map v).sum, c + (l.map w).sum)
  | [], a, b, c => by simp
  | p :: l, a, b, c => by
    rw [List.foldl_cons]
    rw [foldl_triple u v w l]
    simp [Prod.ext_iff]
    refine ⟨by ring, by ring, by ring⟩

theorem sum_mul_map_zip (f g : ℝ → ℝ) :
    ∀ l1 l2 : List ℝ,
    (((l1.map f).zip (l2.map g)).map fun p => p.1 * p.2).sum =
      ((l1.zip l2).map fun p => f p.1 * g p.2).sum
  | [], _ => by simp
  | _ :: _, [] => by simp
  | a :: l1, b :: l2 => by
    simp [sum_mul_map_zip f g l1 l2]

theorem sum_sq_fst_zip (f : ℝ → ℝ) :
    ∀ l1 l2 : List ℝ, l1.length = l2.length →
    ((l1.zip l2).map fun p => f p.1 ^ 2).sum =
      ((l1.map f).map fun a => a * a).sum
  | [], l2, _ => by simp
  | _ :: _, [], h => by simp at h
  | a :: l1, b :: l2, h => by
    rw [List.zip_cons_cons, List.map_cons, List.sum_cons,
      sum_sq_fst_zip f l1 l2 (by simpa using h)]
    simp [pow_two]

theorem sum_sq_snd_zip (g : ℝ → ℝ) :
    ∀ l1 l2 : List ℝ, l1.length = l2.length →
    ((l1.zip l2).map fun p => g p.2 ^ 2).sum =
      ((l2.map g).map fun a => a * a).sum
  | [], [], _ => by simp
  | [], _ :: _, h => by simp at h
  | _ :: _, [], h => by simp at h
  | a :: l1, b :: l2, h => by
    rw [List.zip_cons_cons, List.map_cons, List.sum_cons,
      sum_sq_snd_zip g l1 l2 (by simpa using h)]
    simp [pow_two]

/-- C3 (amended).  On equal-length vectors `pearson_baseline_similarity
vec1 vec2 bx by` is the cosine similarity of the residual vectors
`vec1 - bx` and `vec2 - by`: the baselines are subtracted pointwise and
no shrinkage factor is applied — the function neither takes a shrinkage
parameter nor calls `pearson_correlation`. -/
theorem pearson_baseline_eq_cosine_of_residuals (vec1 vec2 : List ℝ)
    (bx by_ : ℝ) (h : vec1.length = vec2.length) :
    pearson_baseline_similarity vec1 vec2 bx by_ =
      cosine_similarity (vec1.map fun x => x - bx)
        (vec2.map fun y => y - by_) := by
  unfold pearson_baseline_similarity cosine_similarity dot euclidean_norm
  simp only [foldl_triple, zero_add]
  simp only [sum_mul_map_zip,
    sum_sq_fst_zip (fun x => x - bx) vec1 vec2 h,
    sum_sq_snd_zip (fun y => y - by_) vec1 vec2 h]

/-- C3 witness: the amended theorem applied to the concrete equal-length
vectors `[1,2]`, `[3,4]` with baselines 1 and 2. -/
theorem pearson_baseline_eq_cosine_witness :
    ([1, 2] : List ℝ).length = ([3, 4] : List ℝ).length ∧
    pearson_baseline_similarity [1, 2] [3, 4] 1 2 =
      cosine_similarity (([1, 2] : List ℝ).map fun x => x - 1)
        (([3, 4] : List ℝ).map fun y => y - 2) :=
  ⟨rfl, pearson_baseline_eq_cosine_of_residuals [1, 2] [3, 4] 1 2 rfl⟩

/-- C3 (counterexample to the claim as stated).  At `u = v = [0, 2]`
with both baseline parameters 0, `pearson_baseline_similarity` returns
1, while the claimed value `(n-1)/((n-1)+shrinkage) · pearson_correlation(u,v)`
at `n = 2` and shrinkage 1 is `1/2`: the function does not scale
`pearson_correlation` by a shrinkage factor. -/
theorem pearson_baseline_shrinkage_cx :
    pearson_baseline_similarity [0, 2] [0, 2] 0 0 ≠
      ((2 - 1 : ℝ) / ((2 - 1) + 1)) * pearson_correlation [0, 2] [0, 2] := by
  have h4 : Real.sqrt 4 = 2 := by
    rw [show (4 : ℝ) = 2 ^ 2 by norm_num]
    exact Real.sqrt_sq (by norm_num)
  have h2 : Real.sqrt 2 * Real.sqrt 2 = 2 := Real.mul_self_sqrt (by norm_num)
  simp only [pearson_baseline_similarity, pearson_correlation, mean]
  norm_num [h4, h2]
